import Mathlib

/-!
# syncthing-inotify: the change aggregator and the debouncer of `syncwatcher.go`

A shallow embedding of `informChangeDebounce` (`syncwatcher.go`, lines 190-255):

* the Go standard-library functions it calls (`strings.Contains`, `strings.TrimPrefix`,
  `filepath.Clean`, `filepath.Dir`, `sort.Strings`), after the library's
  `path/filepath/path.go`, on a Unix system (`os.PathSeparator = '/'`, no volume names);
* the aggregator closure (scoring loop over `trackedPaths`, selection walk over the
  sorted keys);
* the `debounce` closure, as a step function on its captured variables (`subs`,
  `timer`) and the timer callbacks under way; the closure and the callbacks run in
  different goroutines without a lock, so a run is an interleaving of their steps.

A Go string is modelled as the list of its characters; for the ASCII paths used here
bytes and characters coincide, and the byte-wise order of `sort.Strings` is the
lexicographic order on character codes. Scores are Go `int`s; they are bounded by
`dirVsFiles` times the batch length, so they are modelled as unbounded integers.
-/

namespace SyncWatcher

/-- A Go `string`. -/
abbrev GoString := List Char

/-- The Unix value of `os.PathSeparator`. -/
def PathSeparator : Char := '/'

/-- The Unix `os.IsPathSeparator`. -/
def IsPathSeparator (c : Char) : Bool := c == PathSeparator

/-- The variable `dirVsFiles = 10` (line 49). -/
def dirVsFiles : Int := 10

/-- The variable `debounceTimeout = 300*time.Millisecond` (line 48), in milliseconds. -/
def debounceTimeout : Nat := 300

/-! ## package `strings` -/

namespace strings

/-- Go `strings.HasPrefix`. -/
def HasPrefix : GoString → GoString → Bool
  | _, [] => true
  | [], _ :: _ => false
  | c :: s, d :: p => c == d && HasPrefix s p

/-- Go `strings.Contains s substr`: `substr` occurs somewhere within `s`. -/
def Contains : GoString → GoString → Bool
  | [], substr => substr.isEmpty
  | c :: s, substr => HasPrefix (c :: s) substr || Contains s substr

/-- Go `strings.TrimPrefix`. -/
def TrimPrefix (s pre : GoString) : GoString :=
  if HasPrefix s pre then s.drop pre.length else s

end strings

/-! ## package `sort` -/

namespace sort

/-- The strict byte-wise lexicographic order of Go string comparison `a < b`. -/
def less : GoString → GoString → Bool
  | _, [] => false
  | [], _ :: _ => true
  | a :: as, b :: bs => decide (a < b) || (a == b && less as bs)

/-- The comparison `a <= b` on Go strings. -/
def lessEq (a b : GoString) : Bool := !less b a

/-- Go `sort.Strings`: the slice sorted in increasing order. Equal strings are
indistinguishable, so every sorting algorithm returns the same slice; insertion sort is
used here. -/
def Strings (a : List GoString) : List GoString :=
  List.insertionSort (fun x y => lessEq x y = true) a

end sort

/-! ## package `path/filepath` (Unix) -/

namespace filepath

/-- The test `r+k == n || os.IsPathSeparator(path[r+k])` of `Clean`, on the input that
starts at index `r+k`. -/
def atEndOrSep : GoString → Bool
  | [] => true
  | c :: _ => IsPathSeparator c

/-- The loop `for out.w > dotdot && !os.IsPathSeparator(out.index(out.w)) { out.w-- }`
of `Clean`. The buffer below index `w` is given reversed, `last` is the byte at index
`w`. -/
def backtrackLoop (dotdot : Nat) : Char → GoString → GoString
  | _, [] => []
  | last, c :: revOut =>
    if (c :: revOut).length > dotdot && !IsPathSeparator last then
      backtrackLoop dotdot c revOut
    else c :: revOut

/-- The `..` backtracking of `Clean`: `out.w--` followed by `backtrackLoop`. -/
def backtrack (dotdot : Nat) (out : GoString) : GoString :=
  match out.reverse with
  | [] => []
  | last :: revOut => (backtrackLoop dotdot last revOut).reverse

/-- The main loop `for r < n` of `Clean`. The first list is the unread input `path[r:]`,
`out` is the output buffer `out.buf[:out.w]`. Every iteration reads at least one byte, so
a fuel equal to the length of the unread input is enough. -/
def cleanLoop (rooted : Bool) : Nat → GoString → GoString → Nat → GoString
  | 0, _, out, _ => out
  | _ + 1, [], out, _ => out
  | fuel + 1, c :: rest, out, dotdot =>
    if IsPathSeparator c then
      -- empty path element
      cleanLoop rooted fuel rest out dotdot
    else if c = '.' ∧ atEndOrSep rest = true then
      -- . element
      cleanLoop rooted fuel rest out dotdot
    else if c = '.' ∧ rest.head? = some '.' ∧ atEndOrSep rest.tail = true then
      -- .. element: remove to last separator
      if out.length > dotdot then
        cleanLoop rooted fuel rest.tail (backtrack dotdot out) dotdot
      else if rooted = false then
        let out1 := (if out.length > 0 then out ++ [PathSeparator] else out) ++ ['.', '.']
        cleanLoop rooted fuel rest.tail out1 out1.length
      else
        cleanLoop rooted fuel rest.tail out dotdot
    else
      -- real path element: add slash if needed, copy element
      let out1 :=
        if (rooted && out.length != 1) || (!rooted && out.length != 0) then
          out ++ [PathSeparator]
        else out
      cleanLoop rooted fuel ((c :: rest).dropWhile (fun x => !IsPathSeparator x))
        (out1 ++ (c :: rest).takeWhile (fun x => !IsPathSeparator x)) dotdot

/-- Go `filepath.Clean` on Unix (empty volume name, `FromSlash` the identity). -/
def Clean (path : GoString) : GoString :=
  match path with
  | [] => ['.']
  | c :: rest =>
    let out :=
      if IsPathSeparator c then cleanLoop true rest.length rest [PathSeparator] 1
      else cleanLoop false (c :: rest).length (c :: rest) [] 0
    -- Turn empty string into "."
    if out.length = 0 then ['.'] else out

/-- Go `filepath.Dir` on Unix: drop the final element, then `Clean`. -/
def Dir (path : GoString) : GoString :=
  Clean (path.reverse.dropWhile (fun x => !IsPathSeparator x)).reverse

end filepath

/-! ## The aggregator closure (lines 205-254) -/

/-- The map `trackedPaths` (`map[string]int`), as an association list with distinct
keys. -/
abbrev TrackedPaths := List (GoString × Int)

/-- The map read `v, exists := m[k]`. -/
def mapGet (m : TrackedPaths) (k : GoString) : Option Int :=
  match m with
  | [] => none
  | (k1, v1) :: m1 => if k1 = k then some v1 else mapGet m1 k

/-- The map write `m[k] = v`. -/
def mapSet (m : TrackedPaths) (k : GoString) (v : Int) : TrackedPaths :=
  match m with
  | [] => [(k, v)]
  | (k1, v1) :: m1 => if k1 = k then (k, v) :: m1 else (k1, v1) :: mapSet m1 k v

/-- The variable `dir` of the scoring loop (line 215). -/
def dirOf (path : GoString) : GoString := filepath.Dir (path ++ [PathSeparator])

/-- The variable `score` of the scoring loop (lines 218-221). -/
def scoreOf (path : GoString) : Int :=
  if dirOf path = filepath.Clean path then dirVsFiles else 1

/-- The inner loop of lines 223-228: every tracked path contained in `dir` gets its
score incremented. The loop only rewrites the values of existing keys, each from its
own key, so the map iteration order is irrelevant. -/
def bumpTracked (trackedPaths : TrackedPaths) (dir : GoString) (score : Int) :
    TrackedPaths :=
  trackedPaths.map fun kv =>
    if strings.Contains dir kv.1 then (kv.1, kv.2 + score) else kv

/-- One iteration of the scoring loop (lines 213-234). -/
def scoreStep (trackedPaths : TrackedPaths) (path : GoString) : TrackedPaths :=
  let dir := dirOf path
  let score := scoreOf path
  let bumped := bumpTracked trackedPaths dir score
  let withDir := if (mapGet bumped dir).isSome then bumped else mapSet bumped dir score
  mapSet withDir path (-1)

/-- The map `trackedPaths` after the scoring loop over the sorted batch
(lines 211-234). -/
def scorePaths (paths : List GoString) : TrackedPaths :=
  (sort.Strings paths).foldl scoreStep []

/-- The sorted `keys` of the map (lines 236-240). -/
def sortedKeys (trackedPaths : TrackedPaths) : List GoString :=
  sort.Strings (trackedPaths.map Prod.fst)

/-- The selection walk of lines 241-253: the keys that reach `informChange`, in
order. Reading a missing key gives the zero value. -/
def selectLoop (trackedPaths : TrackedPaths) : GoString → List GoString → List GoString
  | _, [] => []
  | previousPath, trackedPath :: keys =>
    let trackedPathScore := (mapGet trackedPaths trackedPath).getD 0
    if strings.Contains trackedPath previousPath then
      selectLoop trackedPaths previousPath keys
    else if trackedPathScore ≤ dirVsFiles ∧ trackedPathScore ≠ -1 then
      selectLoop trackedPaths previousPath keys
    else trackedPath :: selectLoop trackedPaths trackedPath keys

/-- The keys selected for one batch: the walk starts from `previousPath := "."`. -/
def selectedKeys (paths : List GoString) : List GoString :=
  let trackedPaths := scorePaths paths
  selectLoop trackedPaths ['.'] (sortedKeys trackedPaths)

/-- The value `sub` handed to `informChange` for a selected key (lines 250-251). -/
def subOf (repoDirectory trackedPath : GoString) : GoString :=
  strings.TrimPrefix (strings.TrimPrefix trackedPath repoDirectory) [PathSeparator]

/-- The aggregator closure: the sequence of `sub` arguments of its `informChange`
calls (the report set of one flush), every call taken to succeed. -/
def aggregator (repoDirectory : GoString) (paths : List GoString) : List GoString :=
  (selectedKeys paths).map (subOf repoDirectory)

/-- The relation "`a` is a path-segment ancestor of `b`": `a` is a proper prefix of `b`
that ends at a separator (either `a` ends with the separator or the separator follows
`a` in `b`). -/
def isAncestor (a b : GoString) : Bool :=
  a != b && strings.HasPrefix b a &&
    (a.getLast? == some PathSeparator || (b.drop a.length).head? == some PathSeparator)

/-- The number of entries of a report set that cover `path`: the entries equal to the
path or a path-segment ancestor of it. -/
def coverCount (reportSet : List GoString) (path : GoString) : Nat :=
  (reportSet.filter fun entry => entry == path || isAncestor entry path).length

/-! ## The `debounce` closure (lines 191-203) -/

/-- The variables captured by the closure that `debounce` returns, with the timer
callbacks under way and the record of what has happened so far. The closure runs in the
goroutine of `watchRepo`, every timer callback in a goroutine of its own
(`time.AfterFunc`), and nothing in the source locks the variables they share. Time is
counted in milliseconds. -/
structure Debounce where
  /-- The slice `subs`. -/
  subs : List GoString
  /-- The variable `timer`: the time at which the armed timer fires, `none` when no
  timer is armed (none was started, or the last one has fired). -/
  timer : Option Nat
  /-- The number of callbacks whose timer has fired and that have not yet called
  `f(subs)` (line 199). -/
  started : Nat
  /-- The number of callbacks that have called `f(subs)` and have not yet executed
  `subs = make([]string, 0)` (line 200): `f` blocks on its HTTP requests in between. -/
  running : Nat
  /-- The times at which a timer has fired so far. -/
  fired : List Nat
  /-- The arguments of the calls `f(subs)` made so far, in the order of the calls. -/
  flushed : List (List GoString)

/-- The four things that happen to the captured variables. Accesses from different
goroutines are taken to be sequentially consistent, so a run is an interleaving of
these steps. -/
inductive Step where
  /-- The closure is called with `sub` (lines 195-197). -/
  | ingest (sub : GoString)
  /-- The armed timer fires and starts its function in a new goroutine. -/
  | fire
  /-- A started callback calls `f(subs)` (line 199). -/
  | call
  /-- The call `f(subs)` of a callback returns and the callback executes
  `subs = make([]string, 0)` (line 200). -/
  | reset

/-- The state `debounce` sets up: `timer := &time.Timer{}`, `subs := make([]string, 0)`. -/
def Debounce.init : Debounce := ⟨[], none, 0, 0, [], []⟩

/-- One step at time `now`.

* `ingest`: `timer.Stop()` cancels the armed timer (it does nothing to a timer that has
  fired, and nothing on the zero `Timer` of the initial state), `sub` is appended, a new
  timer is armed for `interval` later. The three statements commute with the steps of
  the callbacks that can come between them, so they are one step.
* `fire`: the armed timer is no longer armed and its callback is started. Without an
  armed timer nothing fires.
* `call`: a started callback hands the current `subs` to `f`, which sorts that slice in
  place as its first statement (line 212); `subs` still names the same array, so it is
  sorted too. Without a started callback nothing is called.
* `reset`: the callback replaces `subs` by an empty slice, whatever was appended since its
  call. Without a running callback nothing is reset. -/
def debounce (interval : Nat) (s : Debounce) (now : Nat) : Step → Debounce
  | .ingest sub =>
    { subs := s.subs ++ [sub], timer := some (now + interval), started := s.started,
      running := s.running, fired := s.fired, flushed := s.flushed }
  | .fire =>
    match s.timer with
    | none => s
    | some _ =>
      { subs := s.subs, timer := none, started := s.started + 1, running := s.running,
        fired := s.fired ++ [now], flushed := s.flushed }
  | .call =>
    if s.started = 0 then s
    else
      { subs := sort.Strings s.subs, timer := s.timer, started := s.started - 1,
        running := s.running + 1, fired := s.fired, flushed := s.flushed ++ [s.subs] }
  | .reset =>
    if s.running = 0 then s
    else
      { subs := [], timer := s.timer, started := s.started, running := s.running - 1,
        fired := s.fired, flushed := s.flushed }

/-- The state reached from `s` by a sequence of timed steps. -/
def runFrom (interval : Nat) (s : Debounce) (steps : List (Nat × Step)) : Debounce :=
  steps.foldl (fun s e => debounce interval s e.1 e.2) s

/-- The state reached from the initial one by a sequence of timed steps. -/
def runSteps (interval : Nat) (steps : List (Nat × Step)) : Debounce :=
  runFrom interval Debounce.init steps

/-- The calls of the closure in a sequence of steps: time and path, in arrival order. -/
def ingestsOf (steps : List (Nat × Step)) : List (Nat × GoString) :=
  steps.filterMap fun e =>
    match e.2 with
    | .ingest sub => some (e.1, sub)
    | .fire => none
    | .call => none
    | .reset => none

/-- The paths ingested by a sequence of steps, in arrival order. -/
def ingested (steps : List (Nat × Step)) : List GoString :=
  (ingestsOf steps).map Prod.snd

/-- The test for the step `call`. -/
def Step.isCall : Step → Bool
  | .ingest _ => false
  | .fire => false
  | .call => true
  | .reset => false

/-- The paths ingested after the last `call` of a sequence of steps, in arrival order:
the paths of the longest suffix of the sequence without a `call`. -/
def sinceLastCall (steps : List (Nat × Step)) : List GoString :=
  ingested (steps.reverse.takeWhile fun e => !e.2.isCall).reverse

/-- The pending batch: the slice `subs` while no callback is between its call of `f` and
its reset; such a callback has handed the content of `subs` to `f`. -/
def pending (s : Debounce) : List GoString :=
  if s.running = 0 then s.subs else []

/-- The test that a step can happen in state `s`: a timer fires only when armed, a
callback calls `f` only once started and resets `subs` only after its call. -/
def enabled (s : Debounce) : Step → Bool
  | .ingest _ => true
  | .fire => s.timer.isSome
  | .call => decide (0 < s.started)
  | .reset => decide (0 < s.running)

/-- The sequences of steps that can happen from state `s`, whatever the times. -/
def possible (interval : Nat) : Debounce → List (Nat × Step) → Bool
  | _, [] => true
  | s, (now, step) :: rest =>
    enabled s step && possible interval (debounce interval s now step) rest

/-- The sequences of steps in which no flush is disturbed: at every `ingest` and at every
`call` no callback is between its call of `f` and its reset. -/
def undisturbed (interval : Nat) : Debounce → List (Nat × Step) → Bool
  | _, [] => true
  | s, (now, step) :: rest =>
    (match step with
      | .ingest _ => s.running == 0
      | .fire => true
      | .call => s.running == 0
      | .reset => true) &&
    undisturbed interval (debounce interval s now step) rest

/-- The sequences of steps in which every flush has finished before the next call of
the closure: at every `ingest` no callback is under way. -/
def quiet (interval : Nat) : Debounce → List (Nat × Step) → Bool
  | _, [] => true
  | s, (now, step) :: rest =>
    (match step with
      | .ingest _ => s.started == 0 && s.running == 0
      | .fire => true
      | .call => true
      | .reset => true) &&
    quiet interval (debounce interval s now step) rest

/-- The sequences of timed steps that can happen from state `s` at time `clock`: every
step can happen, time does not run backwards, and an armed timer fires exactly when it
is due (no step happens later than that with the timer still armed, and `fire` happens
at the due time): the timer is a single deadline. A callback may call `f` any time after
its timer has fired and reset any time after its call, and steps at the same instant may
come in either order. -/
def timely (interval : Nat) : Debounce → Nat → List (Nat × Step) → Bool
  | _, _, [] => true
  | s, clock, (now, step) :: rest =>
    decide (clock ≤ now) &&
    (match s.timer with
      | none => true
      | some due => decide (now ≤ due)) &&
    (match step with
      | .ingest _ => true
      | .fire => s.timer == some now
      | .call => decide (0 < s.started)
      | .reset => decide (0 < s.running)) &&
    timely interval (debounce interval s now step) now rest

/-- The states with nothing left to happen: no timer is armed and no callback is under
way. -/
def settled (s : Debounce) : Bool :=
  s.timer.isNone && s.started == 0 && s.running == 0

/-- Two consecutive calls less than one window apart. -/
def gapShorter (interval : Nat) (a b : Nat × GoString) : Prop :=
  a.1 ≤ b.1 ∧ b.1 < a.1 + interval

/-- Two consecutive calls at least one window apart. -/
def gapAtLeast (interval : Nat) (a b : Nat × GoString) : Prop :=
  a.1 + interval ≤ b.1

/-- Two consecutive calls more than one window apart. -/
def gapLonger (interval : Nat) (a b : Nat × GoString) : Prop :=
  a.1 + interval < b.1

instance gapShorterDecidable (interval : Nat) (a b : Nat × GoString) :
    Decidable (gapShorter interval a b) :=
  inferInstanceAs (Decidable (a.1 ≤ b.1 ∧ b.1 < a.1 + interval))

instance gapAtLeastDecidable (interval : Nat) (a b : Nat × GoString) :
    Decidable (gapAtLeast interval a b) :=
  inferInstanceAs (Decidable (a.1 + interval ≤ b.1))

instance gapLongerDecidable (interval : Nat) (a b : Nat × GoString) :
    Decidable (gapLonger interval a b) :=
  inferInstanceAs (Decidable (a.1 + interval < b.1))

/-- A run with the window of 300 ms in which the closure is called during a flush: call
with `/r/a` at 0 ms, the timer fires at 300 ms and its callback calls `f`, call with
`/r/b` at 400 ms while `f` is at work, the callback resets `subs` at 450 ms. -/
def lostPathSteps : List (Nat × Step) :=
  [(0, .ingest "/r/a".toList), (300, .fire), (300, .call), (400, .ingest "/r/b".toList),
    (450, .reset)]

/-- A run with the window of 300 ms in which the second timer fires before the first
flush has finished: call with `/r/a` at 0 ms, the timer fires at 300 ms and its callback
calls `f`, call with `/r/b` at 400 ms, the second timer fires at 700 ms and its callback
calls `f`. -/
def repeatedPathSteps : List (Nat × Step) :=
  [(0, .ingest "/r/a".toList), (300, .fire), (300, .call), (400, .ingest "/r/b".toList),
    (700, .fire), (700, .call)]

/-- The run `lostPathSteps` continued to its end: the second timer fires at 700 ms, its
callback calls `f` and resets `subs` at 750 ms. -/
def slowFlushSteps : List (Nat × Step) :=
  lostPathSteps ++ [(700, .fire), (700, .call), (750, .reset)]

/-- A run with the window of 300 ms and two calls exactly one window apart, in which the
second call comes before the timer that is due at the same instant and stops it. -/
def tieSteps : List (Nat × Step) :=
  [(0, .ingest "/r/a".toList), (300, .ingest "/r/b".toList), (600, .fire), (600, .call),
    (600, .reset)]

/-- A run with the window of 300 ms and two calls exactly one window apart, in which the
timer fires first and the second call comes before the callback calls `f`. -/
def lateCallSteps : List (Nat × Step) :=
  [(0, .ingest "/r/a".toList), (300, .fire), (300, .ingest "/r/b".toList), (300, .call),
    (350, .reset), (600, .fire), (600, .call), (600, .reset)]

/-! ## Facts about the string order -/

namespace sort

theorem less_irrefl (a : GoString) : less a a = false := by
  induction a with
  | nil => rfl
  | cons c a ih => simp [less, ih]

theorem less_asymm : ∀ a b : GoString, less a b = true → less b a = false
  | _, [], h => by simp [less] at h
  | [], _ :: _, _ => by simp [less]
  | a :: as, b :: bs, h => by
    simp only [less, Bool.or_eq_true, decide_eq_true_eq, Bool.and_eq_true, beq_iff_eq] at h
    simp only [less, Bool.or_eq_false_iff, decide_eq_false_iff_not, Bool.and_eq_false_imp,
      beq_iff_eq]
    rcases h with h | ⟨rfl, h⟩
    · exact ⟨not_lt.mpr (le_of_lt h), fun e => absurd h (e ▸ lt_irrefl _)⟩
    · exact ⟨lt_irrefl _, fun _ => less_asymm as bs h⟩

theorem less_trichotomy : ∀ a b : GoString, less a b = true ∨ a = b ∨ less b a = true
  | [], [] => Or.inr (Or.inl rfl)
  | [], _ :: _ => Or.inl rfl
  | _ :: _, [] => Or.inr (Or.inr rfl)
  | a :: as, b :: bs => by
    simp only [less, Bool.or_eq_true, decide_eq_true_eq, Bool.and_eq_true, beq_iff_eq,
      List.cons.injEq]
    rcases lt_trichotomy a b with h | rfl | h
    · exact Or.inl (Or.inl h)
    · rcases less_trichotomy as bs with h | rfl | h
      · exact Or.inl (Or.inr ⟨rfl, h⟩)
      · exact Or.inr (Or.inl ⟨rfl, rfl⟩)
      · exact Or.inr (Or.inr (Or.inr ⟨rfl, h⟩))
    · exact Or.inr (Or.inr (Or.inl h))

theorem less_trans : ∀ a b c : GoString, less a b = true → less b c = true → less a c = true
  | _, _, [], _, h => by simp [less] at h
  | _, [], _ :: _, h, _ => by simp [less] at h
  | [], _ :: _, _ :: _, _, _ => rfl
  | a :: as, b :: bs, c :: cs, h1, h2 => by
    simp only [less, Bool.or_eq_true, decide_eq_true_eq, Bool.and_eq_true, beq_iff_eq]
      at h1 h2 ⊢
    rcases h1 with h1 | ⟨rfl, h1⟩
    · rcases h2 with h2 | ⟨rfl, _⟩
      · exact Or.inl (lt_trans h1 h2)
      · exact Or.inl h1
    · rcases h2 with h2 | ⟨rfl, h2⟩
      · exact Or.inl h2
      · exact Or.inr ⟨rfl, less_trans as bs cs h1 h2⟩

theorem lessEq_total (a b : GoString) : lessEq a b = true ∨ lessEq b a = true := by
  unfold lessEq
  rcases less_trichotomy a b with h | rfl | h
  · left; simp [less_asymm _ _ h]
  · left; simp [less_irrefl]
  · right; simp [less_asymm _ _ h]

theorem lessEq_trans (a b c : GoString) (h1 : lessEq a b = true) (h2 : lessEq b c = true) :
    lessEq a c = true := by
  unfold lessEq at *
  simp only [Bool.not_eq_true', Bool.not_eq_eq_eq_not, Bool.not_true] at *
  rcases less_trichotomy a b with h | rfl | h
  · cases hca : less c a with
    | false => rfl
    | true => rw [less_trans c a b hca h] at h2; exact h2
  · exact h2
  · rw [h] at h1; cases h1

theorem less_of_lessEq_of_ne (a b : GoString) (h : lessEq a b = true) (hne : a ≠ b) :
    less a b = true := by
  unfold lessEq at h
  rcases less_trichotomy a b with h1 | h1 | h1
  · exact h1
  · exact absurd h1 hne
  · simp [h1] at h

end sort

/-! ## Prefixes, substrings and the order -/

namespace strings

theorem HasPrefix_refl (s : GoString) : HasPrefix s s = true := by
  induction s with
  | nil => rfl
  | cons c s ih => simp [HasPrefix, ih]

theorem Contains_of_HasPrefix (s p : GoString) (h : HasPrefix s p = true) :
    Contains s p = true := by
  cases s with
  | nil =>
    cases p with
    | nil => rfl
    | cons d p => simp [HasPrefix] at h
  | cons c s => simp [Contains, h]

/-- A prefix of a string does not sort after it. -/
theorem not_less_of_HasPrefix : ∀ s p : GoString, HasPrefix s p = true → sort.less s p = false
  | _, [], _ => by simp [sort.less]
  | [], _ :: _, h => by simp [HasPrefix] at h
  | c :: s, d :: p, h => by
    simp only [HasPrefix, Bool.and_eq_true, beq_iff_eq] at h
    obtain ⟨rfl, h⟩ := h
    simp [sort.less, not_less_of_HasPrefix s p h]

/-- The strings that start with `p` form an interval of the order: a string between `p`
and a string starting with `p` starts with `p` too. -/
theorem HasPrefix_of_between : ∀ p k t : GoString, sort.less p k = true →
    sort.less k t = true → HasPrefix t p = true → HasPrefix k p = true
  | [], k, _, _, _, _ => by cases k <;> rfl
  | _ :: _, [], _, h, _, _ => by simp [sort.less] at h
  | _ :: _, _ :: _, [], _, h, _ => by simp [sort.less] at h
  | c :: p, d :: k, e :: t, h1, h2, h3 => by
    simp only [sort.less, Bool.or_eq_true, decide_eq_true_eq, Bool.and_eq_true, beq_iff_eq]
      at h1 h2
    simp only [HasPrefix, Bool.and_eq_true, beq_iff_eq] at h3 ⊢
    obtain ⟨rfl, h3⟩ := h3
    rcases h1 with h1 | ⟨rfl, h1⟩
    · rcases h2 with h2 | ⟨rfl, _⟩
      · exact absurd (lt_trans h1 h2) (lt_irrefl _)
      · exact absurd h1 (lt_irrefl _)
    · rcases h2 with h2 | ⟨_, h2⟩
      · exact absurd h2 (lt_irrefl _)
      · exact ⟨rfl, HasPrefix_of_between p k t h1 h2 h3⟩

end strings

/-! ## The keys of `trackedPaths` -/

theorem keys_mapSet (m : TrackedPaths) (k : GoString) (v : Int) :
    (mapSet m k v).map Prod.fst =
      if k ∈ m.map Prod.fst then m.map Prod.fst else m.map Prod.fst ++ [k] := by
  induction m with
  | nil => simp [mapSet]
  | cons kv m ih =>
    obtain ⟨k1, v1⟩ := kv
    by_cases h : k1 = k
    · subst h; simp [mapSet]
    · have h' : ¬ k = k1 := fun e => h e.symm
      simp only [mapSet, h, if_false, List.map_cons, ih, List.mem_cons, h', false_or]
      split <;> simp

theorem nodup_keys_mapSet (m : TrackedPaths) (k : GoString) (v : Int)
    (h : (m.map Prod.fst).Nodup) : ((mapSet m k v).map Prod.fst).Nodup := by
  rw [keys_mapSet]
  split
  · exact h
  · rename_i hk
    exact List.Nodup.append h (List.nodup_singleton k) (by simpa using hk)

theorem keys_bumpTracked (m : TrackedPaths) (dir : GoString) (score : Int) :
    (bumpTracked m dir score).map Prod.fst = m.map Prod.fst := by
  unfold bumpTracked
  rw [List.map_map]
  apply List.map_congr_left
  intro kv _
  simp only [Function.comp]
  split <;> rfl

theorem nodup_keys_scoreStep (m : TrackedPaths) (path : GoString)
    (h : (m.map Prod.fst).Nodup) : ((scoreStep m path).map Prod.fst).Nodup := by
  unfold scoreStep
  apply nodup_keys_mapSet
  have hb : ((bumpTracked m (dirOf path) (scoreOf path)).map Prod.fst).Nodup := by
    rw [keys_bumpTracked]; exact h
  split
  · exact hb
  · exact nodup_keys_mapSet _ _ _ hb

theorem nodup_keys_foldl (paths : List GoString) (m : TrackedPaths)
    (h : (m.map Prod.fst).Nodup) : ((paths.foldl scoreStep m).map Prod.fst).Nodup := by
  induction paths generalizing m with
  | nil => exact h
  | cons p paths ih => exact ih _ (nodup_keys_scoreStep m p h)

theorem nodup_keys_scorePaths (paths : List GoString) :
    ((scorePaths paths).map Prod.fst).Nodup :=
  nodup_keys_foldl _ [] List.nodup_nil

/-! ## `sort.Strings` -/

theorem Strings_perm (a : List GoString) : (sort.Strings a).Perm a :=
  List.perm_insertionSort _ a

theorem Strings_sorted (a : List GoString) :
    (sort.Strings a).Pairwise (fun x y => sort.lessEq x y = true) := by
  haveI : IsTotal GoString (fun x y => sort.lessEq x y = true) := ⟨sort.lessEq_total⟩
  haveI : IsTrans GoString (fun x y => sort.lessEq x y = true) := ⟨sort.lessEq_trans⟩
  exact List.sorted_insertionSort _ a

/-- The sorted keys of a map are strictly increasing. -/
theorem Strings_strict (a : List GoString) (h : a.Nodup) :
    (sort.Strings a).Pairwise (fun x y => sort.less x y = true) := by
  have hn : (sort.Strings a).Nodup := (Strings_perm a).nodup_iff.mpr h
  exact (List.Pairwise.and (Strings_sorted a) hn).imp
    (fun hxy => sort.less_of_lessEq_of_ne _ _ hxy.1 hxy.2)

/-! ## The selection walk -/

theorem mem_of_mem_selectLoop (m : TrackedPaths) (keys : List GoString) (prev t : GoString)
    (h : t ∈ selectLoop m prev keys) : t ∈ keys := by
  induction keys generalizing prev with
  | nil => simp [selectLoop] at h
  | cons k ks ih =>
    simp only [selectLoop] at h
    split at h
    · exact List.mem_cons_of_mem _ (ih _ h)
    · split at h
      · exact List.mem_cons_of_mem _ (ih _ h)
      · rcases List.mem_cons.mp h with rfl | h
        · exact List.mem_cons_self _ _
        · exact List.mem_cons_of_mem _ (ih _ h)

/-- While `previousPath` sorts before all remaining keys, no key the walk selects starts
with `previousPath`. -/
theorem selectLoop_not_HasPrefix (m : TrackedPaths) (keys : List GoString) (prev : GoString)
    (hs : keys.Pairwise (fun x y => sort.less x y = true))
    (hp : ∀ k ∈ keys, sort.less prev k = true) :
    ∀ t ∈ selectLoop m prev keys, strings.HasPrefix t prev = false := by
  induction keys with
  | nil => intro t h; simp [selectLoop] at h
  | cons k ks ih =>
    intro t h
    have hks := (List.pairwise_cons.mp hs)
    have ih' := ih hks.2 (fun x hx => hp x (List.mem_cons_of_mem _ hx))
    simp only [selectLoop] at h
    split at h
    · exact ih' t h
    · rename_i hc
      split at h
      · exact ih' t h
      · have hk : strings.HasPrefix k prev = false := by
          cases hkp : strings.HasPrefix k prev with
          | false => rfl
          | true => exact absurd (strings.Contains_of_HasPrefix _ _ hkp) hc
        rcases List.mem_cons.mp h with rfl | h
        · exact hk
        · cases htp : strings.HasPrefix t prev with
          | false => rfl
          | true =>
            have htk := hks.1 t (mem_of_mem_selectLoop _ _ _ _ h)
            have := strings.HasPrefix_of_between prev k t (hp k (List.mem_cons_self _ _))
              htk htp
            rw [this] at hk; cases hk

/-- Over strictly increasing keys, no key selected by the walk is a prefix of another
selected key. -/
theorem selectLoop_pairwise (m : TrackedPaths) (keys : List GoString) (prev : GoString)
    (hs : keys.Pairwise (fun x y => sort.less x y = true)) :
    (selectLoop m prev keys).Pairwise
      (fun x y => sort.less x y = true ∧ strings.HasPrefix y x = false) := by
  induction keys generalizing prev with
  | nil => simp [selectLoop]
  | cons k ks ih =>
    have hks := (List.pairwise_cons.mp hs)
    simp only [selectLoop]
    split
    · exact ih _ hks.2
    · split
      · exact ih _ hks.2
      · refine List.pairwise_cons.mpr ⟨fun t ht => ?_, ih _ hks.2⟩
        exact ⟨hks.1 t (mem_of_mem_selectLoop _ _ _ _ ht),
          selectLoop_not_HasPrefix m ks k hks.2 hks.1 t ht⟩

theorem selectedKeys_pairwise (paths : List GoString) :
    (selectedKeys paths).Pairwise
      (fun x y => sort.less x y = true ∧ strings.HasPrefix y x = false) :=
  selectLoop_pairwise _ _ _ (Strings_strict _ (nodup_keys_scorePaths paths))

/-! ## `filepath.Clean` and a trailing separator -/

namespace filepath

theorem atEndOrSep_append (rest : GoString) :
    atEndOrSep (rest ++ [PathSeparator]) = atEndOrSep rest := by
  cases rest with
  | nil => simp [atEndOrSep, IsPathSeparator]
  | cons c rest => rfl

theorem takeWhile_append_sep (l : GoString) :
    (l ++ [PathSeparator]).takeWhile (fun x => !IsPathSeparator x) =
      l.takeWhile (fun x => !IsPathSeparator x) := by
  induction l with
  | nil => simp [List.takeWhile, IsPathSeparator]
  | cons c l ih =>
    simp only [List.cons_append, List.takeWhile_cons, ih]

theorem dropWhile_append_sep (l : GoString) :
    (l ++ [PathSeparator]).dropWhile (fun x => !IsPathSeparator x) =
      l.dropWhile (fun x => !IsPathSeparator x) ++ [PathSeparator] := by
  induction l with
  | nil => simp [List.dropWhile, IsPathSeparator]
  | cons c l ih =>
    simp only [List.cons_append, List.dropWhile_cons, ih]
    split <;> rfl

theorem length_dropWhile_le (p : Char → Bool) (l : GoString) :
    (l.dropWhile p).length ≤ l.length := by
  induction l with
  | nil => simp
  | cons c l ih =>
    simp only [List.dropWhile]
    split
    · exact Nat.le_succ_of_le ih
    · exact Nat.le_refl _

theorem cleanLoop_cons (rooted : Bool) (fuel : Nat) (c : Char) (rest out : GoString)
    (dotdot : Nat) :
    cleanLoop rooted (fuel + 1) (c :: rest) out dotdot =
      if IsPathSeparator c then cleanLoop rooted fuel rest out dotdot
      else if c = '.' ∧ atEndOrSep rest = true then cleanLoop rooted fuel rest out dotdot
      else if c = '.' ∧ rest.head? = some '.' ∧ atEndOrSep rest.tail = true then
        if out.length > dotdot then
          cleanLoop rooted fuel rest.tail (backtrack dotdot out) dotdot
        else if rooted = false then
          cleanLoop rooted fuel rest.tail
            ((if out.length > 0 then out ++ [PathSeparator] else out) ++ ['.', '.'])
            ((if out.length > 0 then out ++ [PathSeparator] else out) ++ ['.', '.']).length
        else
          cleanLoop rooted fuel rest.tail out dotdot
      else
        cleanLoop rooted fuel ((c :: rest).dropWhile (fun x => !IsPathSeparator x))
          ((if (rooted && out.length != 1) || (!rooted && out.length != 0) then
              out ++ [PathSeparator]
            else out) ++ (c :: rest).takeWhile (fun x => !IsPathSeparator x)) dotdot :=
  rfl

/-- One more separator at the end of the unread input costs one more iteration, which
reads it as an empty path element and leaves the buffer as it is. -/
theorem cleanLoop_append_sep (rooted : Bool) :
    ∀ (fuel : Nat) (rest out : GoString) (dotdot : Nat), rest.length ≤ fuel →
      cleanLoop rooted (fuel + 1) (rest ++ [PathSeparator]) out dotdot =
        cleanLoop rooted fuel rest out dotdot := by
  intro fuel
  induction fuel with
  | zero =>
    intro rest out dotdot h
    have : rest = [] := List.length_eq_zero.mp (Nat.le_zero.mp h)
    subst this
    simp [cleanLoop, IsPathSeparator]
  | succ fuel ih =>
    intro rest out dotdot h
    cases rest with
    | nil => simp [cleanLoop, IsPathSeparator]
    | cons c r =>
      have hr : r.length ≤ fuel := Nat.le_of_succ_le_succ h
      rw [List.cons_append, cleanLoop_cons, cleanLoop_cons, atEndOrSep_append]
      by_cases h1 : IsPathSeparator c = true
      · rw [if_pos h1, if_pos h1]
        exact ih r out dotdot hr
      · rw [if_neg h1, if_neg h1]
        by_cases h2 : c = '.' ∧ atEndOrSep r = true
        · rw [if_pos h2, if_pos h2]
          exact ih r out dotdot hr
        · rw [if_neg h2, if_neg h2]
          have hd := dropWhile_append_sep (c :: r)
          have ht := takeWhile_append_sep (c :: r)
          rw [List.cons_append] at hd ht
          have hlen : ((c :: r).dropWhile (fun x => !IsPathSeparator x)).length ≤ fuel := by
            have : (c :: r).dropWhile (fun x => !IsPathSeparator x) =
                r.dropWhile (fun x => !IsPathSeparator x) := by
              simp [List.dropWhile_cons, h1]
            rw [this]
            exact le_trans (length_dropWhile_le _ _) hr
          cases r with
          | nil =>
            have h3 : ¬ (c = '.' ∧ ([] ++ [PathSeparator] : GoString).head? = some '.' ∧
                atEndOrSep ([] ++ [PathSeparator] : GoString).tail = true) := by
              simp [PathSeparator]
            have h4 : ¬ (c = '.' ∧ ([] : GoString).head? = some '.' ∧
                atEndOrSep ([] : GoString).tail = true) := by simp
            rw [if_neg h3, if_neg h4, hd, ht]
            exact ih _ _ _ hlen
          | cons d r2 =>
            have hr2 : r2.length ≤ fuel := Nat.le_of_succ_le hr
            rw [List.cons_append, List.head?_cons, List.tail_cons, List.head?_cons,
              List.tail_cons, atEndOrSep_append]
            by_cases h3 : c = '.' ∧ some d = some '.' ∧ atEndOrSep r2 = true
            · rw [if_pos h3, if_pos h3]
              split
              · exact ih _ _ _ hr2
              · split
                · exact ih _ _ _ hr2
                · exact ih _ _ _ hr2
            · rw [if_neg h3, if_neg h3]
              rw [List.cons_append] at hd ht
              rw [hd, ht]
              exact ih _ _ _ hlen

/-- A trailing separator does not change the result of `Clean`, except on the empty
path. -/
theorem Clean_append_sep (path : GoString) (h : path ≠ []) :
    Clean (path ++ [PathSeparator]) = Clean path := by
  cases path with
  | nil => exact absurd rfl h
  | cons c rest =>
    have e1 := cleanLoop_append_sep true rest.length rest [PathSeparator] 1 (Nat.le_refl _)
    have e2 := cleanLoop_append_sep false (c :: rest).length (c :: rest) [] 0 (Nat.le_refl _)
    simp only [List.cons_append, List.length_cons] at e2
    simp only [Clean, List.cons_append, List.length_append, List.length_cons,
      List.length_nil, Nat.zero_add, e1, e2]

/-- The function `Dir` on a path that ends with a separator is `Clean` of that path. -/
theorem Dir_append_sep (path : GoString) :
    Dir (path ++ [PathSeparator]) = Clean (path ++ [PathSeparator]) := by
  simp [Dir, List.dropWhile, IsPathSeparator]

end filepath

theorem dirOf_eq_Clean (path : GoString) (h : path ≠ []) :
    dirOf path = filepath.Clean path := by
  rw [dirOf, filepath.Dir_append_sep, filepath.Clean_append_sep path h]

namespace filepath

/-- The fuel of `Clean` is enough: once the fuel covers the unread input, more fuel does
not change the result of the loop. -/
theorem cleanLoop_fuel_succ (rooted : Bool) :
    ∀ (fuel : Nat) (rest out : GoString) (dotdot : Nat), rest.length ≤ fuel →
      cleanLoop rooted (fuel + 1) rest out dotdot = cleanLoop rooted fuel rest out dotdot := by
  intro fuel
  induction fuel with
  | zero =>
    intro rest out dotdot h
    have : rest = [] := List.length_eq_zero.mp (Nat.le_zero.mp h)
    subst this
    rfl
  | succ fuel ih =>
    intro rest out dotdot h
    cases rest with
    | nil => rfl
    | cons c r =>
      have hr : r.length ≤ fuel := Nat.le_of_succ_le_succ h
      have hr2 : r.tail.length ≤ fuel := by
        rw [List.length_tail]; exact le_trans (Nat.sub_le _ _) hr
      have hlen : ((c :: r).dropWhile (fun x => !IsPathSeparator x)).length ≤ fuel ∨
          IsPathSeparator c = true := by
        by_cases h1 : IsPathSeparator c = true
        · exact Or.inr h1
        · left
          have : (c :: r).dropWhile (fun x => !IsPathSeparator x) =
              r.dropWhile (fun x => !IsPathSeparator x) := by
            simp [List.dropWhile_cons, h1]
          rw [this]
          exact le_trans (length_dropWhile_le _ _) hr
      rw [cleanLoop_cons, cleanLoop_cons]
      split
      · exact ih _ _ _ hr
      · rename_i h1
        split
        · exact ih _ _ _ hr
        · split
          · split
            · exact ih _ _ _ hr2
            · split
              · exact ih _ _ _ hr2
              · exact ih _ _ _ hr2
          · exact ih _ _ _ (hlen.resolve_right h1)

theorem cleanLoop_fuel_add (rooted : Bool) (rest out : GoString) (dotdot extra : Nat) :
    cleanLoop rooted (rest.length + extra) rest out dotdot =
      cleanLoop rooted rest.length rest out dotdot := by
  induction extra with
  | zero => rfl
  | succ extra ih =>
    rw [← ih, ← Nat.add_assoc]
    exact cleanLoop_fuel_succ rooted _ rest out dotdot (Nat.le_add_right _ _)

end filepath

/-! ## The debouncer: flushes that are not disturbed -/

theorem runSteps_concat (interval : Nat) (steps : List (Nat × Step)) (e : Nat × Step) :
    runSteps interval (steps ++ [e]) = debounce interval (runSteps interval steps) e.1 e.2 := by
  simp [runSteps, runFrom, List.foldl_append]

theorem ingested_concat (steps : List (Nat × Step)) (now : Nat) (step : Step) :
    ingested (steps ++ [(now, step)]) =
      ingested steps ++
        (match step with
          | .ingest sub => [sub]
          | .fire => []
          | .call => []
          | .reset => []) := by
  cases step <;> simp [ingested, ingestsOf, List.filterMap_append]

theorem sinceLastCall_concat (steps : List (Nat × Step)) (now : Nat) (step : Step) :
    sinceLastCall (steps ++ [(now, step)]) =
      (match step with
        | .ingest sub => sinceLastCall steps ++ [sub]
        | .fire => sinceLastCall steps
        | .call => []
        | .reset => sinceLastCall steps) := by
  cases step <;>
    simp [sinceLastCall, ingested, ingestsOf, Step.isCall, List.takeWhile_cons,
      List.filterMap_append]

theorem undisturbed_concat (interval : Nat) (steps : List (Nat × Step)) (now : Nat)
    (step : Step) :
    ∀ s : Debounce, undisturbed interval s (steps ++ [(now, step)]) =
      (undisturbed interval s steps &&
        (match step with
          | .ingest _ => (runFrom interval s steps).running == 0
          | .fire => true
          | .call => (runFrom interval s steps).running == 0
          | .reset => true)) := by
  induction steps with
  | nil => intro s; cases step <;> simp [undisturbed, runFrom]
  | cons e steps ih =>
    intro s
    obtain ⟨n, st⟩ := e
    rw [List.cons_append]
    simp only [undisturbed, ih, Bool.and_assoc]
    rfl

theorem possible_concat (interval : Nat) (steps : List (Nat × Step)) (now : Nat)
    (step : Step) :
    ∀ s : Debounce, possible interval s (steps ++ [(now, step)]) =
      (possible interval s steps && enabled (runFrom interval s steps) step) := by
  induction steps with
  | nil => intro s; simp [possible, runFrom]
  | cons e steps ih =>
    intro s
    obtain ⟨n, st⟩ := e
    rw [List.cons_append]
    simp only [possible, ih, Bool.and_assoc]
    rfl

/-- The invariant of the closure over the sequences of steps that can happen and in
which no flush is disturbed. -/
theorem runSteps_invariant (interval : Nat) (steps : List (Nat × Step))
    (hp : possible interval Debounce.init steps = true)
    (hu : undisturbed interval Debounce.init steps = true) :
    (runSteps interval steps).running ≤ 1 ∧
    (runSteps interval steps).flushed.flatten ++ pending (runSteps interval steps)
      = ingested steps ∧
    pending (runSteps interval steps) = sinceLastCall steps := by
  induction steps using List.reverseRecOn with
  | nil => simp [runSteps, runFrom, Debounce.init, ingested, ingestsOf, sinceLastCall, pending]
  | append_singleton steps e ih =>
    obtain ⟨now, step⟩ := e
    rw [undisturbed_concat, Bool.and_eq_true] at hu
    rw [possible_concat, Bool.and_eq_true] at hp
    obtain ⟨h1, h4, h5⟩ := ih hp.1 hu.1
    have hrun := hu.2
    have hen := hp.2
    rw [show runFrom interval Debounce.init steps = runSteps interval steps from rfl]
      at hrun hen
    rw [runSteps_concat, ingested_concat, sinceLastCall_concat]
    generalize runSteps interval steps = s at h1 h4 h5 hrun hen
    cases step with
    | ingest sub =>
      have hr : s.running = 0 := by simpa using hrun
      have hpd : pending s = s.subs := by simp [pending, hr]
      rw [hpd] at h4 h5
      refine ⟨?_, ?_, ?_⟩
      · simp [debounce, hr]
      · simp [debounce, pending, hr, ← h4]
      · simp [debounce, pending, hr, h5]
    | fire =>
      have hsome : s.timer.isSome = true := by simpa [enabled] using hen
      obtain ⟨due, ht⟩ := Option.isSome_iff_exists.mp hsome
      refine ⟨?_, ?_, ?_⟩
      · simpa [debounce, ht] using h1
      · simpa [debounce, ht, pending] using h4
      · simpa [debounce, ht, pending] using h5
    | call =>
      have hpos : 0 < s.started := by simpa [enabled] using hen
      have hr : s.running = 0 := by simpa using hrun
      have hne : ¬ s.started = 0 := by omega
      have hpd : pending s = s.subs := by simp [pending, hr]
      rw [hpd] at h4
      refine ⟨?_, ?_, ?_⟩
      · simp [debounce, hne, hr]
      · simp [debounce, hne, pending, h4]
      · simp [debounce, hne, pending]
    | reset =>
      have hpos : 0 < s.running := by simpa [enabled] using hen
      have hr1 : s.running = 1 := by omega
      have hne : ¬ s.running = 0 := by omega
      have hpd : pending s = [] := by simp [pending, hne]
      rw [hpd] at h4 h5
      refine ⟨?_, ?_, ?_⟩
      · simp [debounce, hne, hr1]
      · simpa [debounce, hne, pending, hr1] using h4
      · simpa [debounce, hne, pending, hr1] using h5

/-! ## The debouncer against the clock -/

theorem timely_ingest (interval : Nat) (s : Debounce) (clock now : Nat) (sub : GoString)
    (rest : List (Nat × Step))
    (h : timely interval s clock ((now, Step.ingest sub) :: rest) = true) :
    clock ≤ now ∧ (∀ due, s.timer = some due → now ≤ due) ∧
      timely interval (debounce interval s now (Step.ingest sub)) now rest = true := by
  simp only [timely, Bool.and_eq_true, decide_eq_true_eq] at h
  refine ⟨h.1.1.1, ?_, h.2⟩
  intro due hd
  have := h.1.1.2
  rw [hd] at this
  simpa using this

theorem timely_fire (interval : Nat) (s : Debounce) (clock now : Nat)
    (rest : List (Nat × Step))
    (h : timely interval s clock ((now, Step.fire) :: rest) = true) :
    clock ≤ now ∧ s.timer = some now ∧
      timely interval (debounce interval s now Step.fire) now rest = true := by
  simp only [timely, Bool.and_eq_true, decide_eq_true_eq, beq_iff_eq] at h
  exact ⟨h.1.1.1, h.1.2, h.2⟩

theorem timely_call (interval : Nat) (s : Debounce) (clock now : Nat)
    (rest : List (Nat × Step))
    (h : timely interval s clock ((now, Step.call) :: rest) = true) :
    clock ≤ now ∧ 0 < s.started ∧
      timely interval (debounce interval s now Step.call) now rest = true := by
  simp only [timely, Bool.and_eq_true, decide_eq_true_eq] at h
  exact ⟨h.1.1.1, h.1.2, h.2⟩

theorem timely_reset (interval : Nat) (s : Debounce) (clock now : Nat)
    (rest : List (Nat × Step))
    (h : timely interval s clock ((now, Step.reset) :: rest) = true) :
    clock ≤ now ∧ 0 < s.running ∧
      timely interval (debounce interval s now Step.reset) now rest = true := by
  simp only [timely, Bool.and_eq_true, decide_eq_true_eq] at h
  exact ⟨h.1.1.1, h.1.2, h.2⟩

/-- Time does not run backwards along a sequence of steps that can happen. -/
theorem timely_le (interval : Nat) (steps : List (Nat × Step)) :
    ∀ (s : Debounce) (clock : Nat), timely interval s clock steps = true →
      ∀ e ∈ steps, clock ≤ e.1 := by
  induction steps with
  | nil => intro s clock _ e he; cases he
  | cons x steps ih =>
    intro s clock h e he
    obtain ⟨now, step⟩ := x
    have h' : clock ≤ now ∧
        timely interval (debounce interval s now step) now steps = true := by
      simp only [timely, Bool.and_eq_true, decide_eq_true_eq] at h
      exact ⟨h.1.1.1, h.2⟩
    rcases List.mem_cons.mp he with rfl | he
    · exact h'.1
    · exact le_trans h'.1 (ih _ _ h'.2 e he)

theorem mem_ingestsOf (steps : List (Nat × Step)) (x : Nat × GoString)
    (h : x ∈ ingestsOf steps) : ∃ e ∈ steps, e.1 = x.1 := by
  simp only [ingestsOf, List.mem_filterMap] at h
  obtain ⟨e, he, hx⟩ := h
  refine ⟨e, he, ?_⟩
  obtain ⟨now, step⟩ := e
  cases step <;> simp at hx
  rw [← hx]

/-- With no timer armed and no further call of the closure, no timer fires any more, and
the callbacks under way finish: a started one hands over `subs` as it is. -/
theorem drain_of_no_ingest (interval : Nat) (steps : List (Nat × Step)) :
    ∀ (s : Debounce) (clock : Nat), s.timer = none →
      timely interval s clock steps = true → ingestsOf steps = [] →
      settled (runFrom interval s steps) = true →
      (runFrom interval s steps).fired = s.fired ∧
      (s.started = 1 → s.running = 0 →
        (runFrom interval s steps).flushed = s.flushed ++ [s.subs]) ∧
      (s.started = 0 → (runFrom interval s steps).flushed = s.flushed) := by
  induction steps with
  | nil =>
    intro s clock _ _ _ hs
    refine ⟨rfl, fun h1 _ => ?_, fun _ => rfl⟩
    simp [runFrom, settled, h1] at hs
  | cons x steps ih =>
    intro s clock ht h hi hs
    obtain ⟨now, step⟩ := x
    rw [runFrom, List.foldl_cons, ← runFrom] at hs ⊢
    cases step with
    | ingest sub => simp [ingestsOf] at hi
    | fire =>
      have := (timely_fire _ _ _ _ _ h).2.1
      rw [ht] at this; cases this
    | call =>
      obtain ⟨-, hpos, h'⟩ := timely_call _ _ _ _ _ h
      have hi' : ingestsOf steps = [] := by simpa [ingestsOf] using hi
      have hne : ¬ s.started = 0 := by omega
      obtain ⟨ihA, -, ihC⟩ := ih _ now (by simp [debounce, hne, ht]) h' hi' hs
      refine ⟨?_, fun h1 _ => ?_, fun h0 => ?_⟩
      · rw [ihA]; simp [debounce, hne]
      · rw [ihC (by simp [debounce, hne, h1])]; simp [debounce, hne]
      · omega
    | reset =>
      obtain ⟨-, hpos, h'⟩ := timely_reset _ _ _ _ _ h
      have hi' : ingestsOf steps = [] := by simpa [ingestsOf] using hi
      have hne : ¬ s.running = 0 := by omega
      obtain ⟨ihA, -, ihC⟩ := ih _ now (by simp [debounce, hne, ht]) h' hi' hs
      refine ⟨?_, fun _ h0 => ?_, fun h0 => ?_⟩
      · rw [ihA]; simp [debounce, hne]
      · omega
      · rw [ihC (by simp [debounce, hne, h0])]; simp [debounce, hne]

/-- From a state with the timer armed one window after the call `a` and no callback
under way: while all gaps stay shorter than the window, the only timer that fires is the
one armed by the last call, and its callback hands over every pending path. -/
theorem flushed_gapShorter (interval : Nat) (steps : List (Nat × Step)) :
    ∀ (s : Debounce) (clock : Nat) (a : Nat × GoString),
      s.timer = some (a.1 + interval) → s.started = 0 → s.running = 0 →
      timely interval s clock steps = true →
      settled (runFrom interval s steps) = true →
      List.Chain (gapShorter interval) a (ingestsOf steps) →
      (runFrom interval s steps).fired =
        s.fired ++ [((ingestsOf steps).getLastD a).1 + interval] ∧
      (runFrom interval s steps).flushed = s.flushed ++ [s.subs ++ ingested steps] := by
  induction steps with
  | nil =>
    intro s clock a ht _ _ _ hs _
    simp [runFrom, settled, ht] at hs
  | cons x steps ih =>
    intro s clock a ht hst hr h hs hc
    obtain ⟨now, step⟩ := x
    rw [runFrom, List.foldl_cons, ← runFrom] at hs ⊢
    cases step with
    | ingest sub =>
      have h' := (timely_ingest _ _ _ _ _ _ h).2.2
      have hi : ingestsOf ((now, Step.ingest sub) :: steps) = (now, sub) :: ingestsOf steps := by
        simp [ingestsOf]
      rw [hi] at hc
      have hc' := (List.chain_cons.mp hc).2
      obtain ⟨e1, e2⟩ :=
        ih (debounce interval s now (Step.ingest sub)) now (now, sub) rfl hst hr h' hs hc'
      rw [e1, e2]
      simp only [ingested, hi, List.getLastD_cons, List.map_cons]
      simp [debounce]
    | fire =>
      obtain ⟨-, hnow, h'⟩ := timely_fire _ _ _ _ _ h
      have hnow' : now = a.1 + interval := by
        rw [ht] at hnow; exact (Option.some.inj hnow).symm
      have hi : ingestsOf ((now, Step.fire) :: steps) = ingestsOf steps := by
        simp [ingestsOf]
      rw [hi] at hc
      have hnil : ingestsOf steps = [] := by
        cases hl : ingestsOf steps with
        | nil => rfl
        | cons y l =>
          rw [hl] at hc
          have hy := (List.chain_cons.mp hc).1
          obtain ⟨e, he, hey⟩ := mem_ingestsOf steps y (by rw [hl]; exact List.mem_cons_self _ _)
          have := timely_le _ _ _ _ h' e he
          have h2 := hy.2
          omega
      obtain ⟨e1, e2, -⟩ := drain_of_no_ingest interval steps _ now
        (by simp [debounce, ht]) h' hnil hs
      rw [e1, e2 (by simp [debounce, ht, hst]) (by simp [debounce, ht, hr])]
      simp only [ingested, hi, hnil, List.getLastD_nil, List.map_nil, List.append_nil]
      simp [debounce, ht, hnow']
    | call =>
      have := (timely_call _ _ _ _ _ h).2.1
      omega
    | reset =>
      have := (timely_reset _ _ _ _ _ h).2.1
      omega

/-- From the four kinds of state met when every flush finishes before the next call and
the calls are more than one window apart: a timer fires one window after every call and
its callback hands over the path of that call alone. -/
theorem flushed_gapLonger (interval : Nat) (steps : List (Nat × Step)) :
    ∀ (s : Debounce) (clock : Nat),
      timely interval s clock steps = true → quiet interval s steps = true →
      settled (runFrom interval s steps) = true →
      (s.timer = none → s.started = 0 → s.running = 0 → s.subs = [] →
        (ingestsOf steps).Chain' (gapLonger interval) →
        (runFrom interval s steps).fired =
          s.fired ++ (ingestsOf steps).map (fun e => e.1 + interval) ∧
        (runFrom interval s steps).flushed =
          s.flushed ++ (ingestsOf steps).map (fun e => [e.2])) ∧
      (∀ a : Nat × GoString, s.timer = some (a.1 + interval) → s.started = 0 →
        s.running = 0 → s.subs = [a.2] →
        List.Chain (gapLonger interval) a (ingestsOf steps) →
        (runFrom interval s steps).fired =
          s.fired ++ (a.1 + interval) :: (ingestsOf steps).map (fun e => e.1 + interval) ∧
        (runFrom interval s steps).flushed =
          s.flushed ++ [a.2] :: (ingestsOf steps).map (fun e => [e.2])) ∧
      (s.timer = none → s.started = 1 → s.running = 0 →
        (ingestsOf steps).Chain' (gapLonger interval) →
        (runFrom interval s steps).fired =
          s.fired ++ (ingestsOf steps).map (fun e => e.1 + interval) ∧
        (runFrom interval s steps).flushed =
          s.flushed ++ s.subs :: (ingestsOf steps).map (fun e => [e.2])) ∧
      (s.timer = none → s.started = 0 → s.running = 1 →
        (ingestsOf steps).Chain' (gapLonger interval) →
        (runFrom interval s steps).fired =
          s.fired ++ (ingestsOf steps).map (fun e => e.1 + interval) ∧
        (runFrom interval s steps).flushed =
          s.flushed ++ (ingestsOf steps).map (fun e => [e.2])) := by
  induction steps with
  | nil =>
    intro s clock _ _ hs
    refine ⟨fun _ _ _ _ _ => by simp [runFrom, ingestsOf], fun a ht _ _ _ _ => ?_,
      fun _ h1 _ _ => ?_, fun _ _ h1 _ => ?_⟩
    · simp [runFrom, settled, ht] at hs
    · simp [runFrom, settled, h1] at hs
    · simp [runFrom, settled, h1] at hs
  | cons x steps ih =>
    intro s clock h hq hs
    obtain ⟨now, step⟩ := x
    rw [runFrom, List.foldl_cons, ← runFrom] at hs
    have hq' : quiet interval (debounce interval s now step) steps = true := by
      simp only [quiet, Bool.and_eq_true] at hq; exact hq.2
    cases step with
    | ingest sub =>
      obtain ⟨-, hdue, h'⟩ := timely_ingest _ _ _ _ _ _ h
      have hi : ingestsOf ((now, Step.ingest sub) :: steps) = (now, sub) :: ingestsOf steps := by
        simp [ingestsOf]
      have hrun : s.started = 0 ∧ s.running = 0 := by
        simp only [quiet, Bool.and_eq_true, beq_iff_eq] at hq; exact hq.1
      obtain ⟨-, ih2, -, -⟩ := ih _ now h' hq' hs
      refine ⟨fun _ hst hr hsub hc => ?_, fun a ht _ _ _ hc => ?_, fun _ h1 _ _ => ?_,
        fun _ _ h1 _ => ?_⟩
      · rw [hi] at hc ⊢
        rw [runFrom, List.foldl_cons, ← runFrom]
        obtain ⟨e1, e2⟩ := ih2 (now, sub) rfl hst hr (by simp [debounce, hsub]) hc
        rw [e1, e2]
        simp [debounce]
      · rw [hi] at hc
        have := (List.chain_cons.mp hc).1
        have := hdue _ ht
        unfold gapLonger at *
        omega
      · omega
      · omega
    | fire =>
      obtain ⟨-, hnow, h'⟩ := timely_fire _ _ _ _ _ h
      have hi : ingestsOf ((now, Step.fire) :: steps) = ingestsOf steps := by
        simp [ingestsOf]
      obtain ⟨-, -, ih3, -⟩ := ih _ now h' hq' hs
      refine ⟨fun ht _ _ _ _ => ?_, fun a ht hst hr hsub hc => ?_, fun ht _ _ _ => ?_,
        fun ht _ _ _ => ?_⟩
      · rw [ht] at hnow; cases hnow
      · have hnow' : now = a.1 + interval := by
          rw [ht] at hnow; exact (Option.some.inj hnow).symm
        rw [hi] at hc ⊢
        have hc' : (ingestsOf steps).Chain' (gapLonger interval) :=
          List.Chain'.tail (l := a :: ingestsOf steps) hc
        rw [runFrom, List.foldl_cons, ← runFrom]
        obtain ⟨e1, e2⟩ := ih3 (by simp [debounce, ht]) (by simp [debounce, ht, hst])
          (by simp [debounce, ht, hr]) hc'
        rw [e1, e2]
        simp [debounce, ht, hsub, hnow']
      · rw [ht] at hnow; cases hnow
      · rw [ht] at hnow; cases hnow
    | call =>
      obtain ⟨-, hpos, h'⟩ := timely_call _ _ _ _ _ h
      have hi : ingestsOf ((now, Step.call) :: steps) = ingestsOf steps := by
        simp [ingestsOf]
      have hne : ¬ s.started = 0 := by omega
      obtain ⟨-, -, -, ih4⟩ := ih _ now h' hq' hs
      refine ⟨fun _ h0 _ _ _ => ?_, fun a _ h0 _ _ _ => ?_, fun ht h1 hr hc => ?_,
        fun _ h0 _ _ => ?_⟩
      · omega
      · omega
      · rw [hi] at hc ⊢
        rw [runFrom, List.foldl_cons, ← runFrom]
        obtain ⟨e1, e2⟩ := ih4 (by simp [debounce, hne, ht]) (by simp [debounce, hne, h1])
          (by simp [debounce, hne, hr]) hc
        rw [e1, e2]
        simp [debounce, hne]
      · omega
    | reset =>
      obtain ⟨-, hpos, h'⟩ := timely_reset _ _ _ _ _ h
      have hi : ingestsOf ((now, Step.reset) :: steps) = ingestsOf steps := by
        simp [ingestsOf]
      have hne : ¬ s.running = 0 := by omega
      obtain ⟨ih1, -, -, -⟩ := ih _ now h' hq' hs
      refine ⟨fun _ _ hr _ _ => ?_, fun a _ _ hr _ _ => ?_, fun _ _ hr _ => ?_,
        fun ht hst hr hc => ?_⟩
      · omega
      · omega
      · omega
      · rw [hi] at hc ⊢
        rw [runFrom, List.foldl_cons, ← runFrom]
        obtain ⟨e1, e2⟩ := ih1 (by simp [debounce, hne, ht]) (by simp [debounce, hne, hst])
          (by simp [debounce, hne, hr]) (by simp [debounce, hne]) hc
        rw [e1, e2]
        simp [debounce, hne]

/-- The timed runs are runs that can happen. -/
theorem possible_of_timely (interval : Nat) (steps : List (Nat × Step)) :
    ∀ (s : Debounce) (clock : Nat), timely interval s clock steps = true →
      possible interval s steps = true := by
  induction steps with
  | nil => intro s clock _; rfl
  | cons x steps ih =>
    intro s clock h
    obtain ⟨now, step⟩ := x
    cases step with
    | ingest sub =>
      simp only [possible, enabled, Bool.true_and]
      exact ih _ _ (timely_ingest _ _ _ _ _ _ h).2.2
    | fire =>
      obtain ⟨-, ht, h'⟩ := timely_fire _ _ _ _ _ h
      simp only [possible, enabled, ht, Option.isSome_some, Bool.true_and]
      exact ih _ _ h'
    | call =>
      obtain ⟨-, hpos, h'⟩ := timely_call _ _ _ _ _ h
      simp only [possible, enabled, hpos, decide_True, Bool.true_and]
      exact ih _ _ h'
    | reset =>
      obtain ⟨-, hpos, h'⟩ := timely_reset _ _ _ _ _ h
      simp only [possible, enabled, hpos, decide_True, Bool.true_and]
      exact ih _ _ h'

/-! ## The claims -/

set_option maxRecDepth 100000 in
/-- C1, the code at a batch of 11 distinct files directly under the directory `/r/D`
(watch root `/r`, threshold 10): the report set is the 11 individual files, and the
directory `D` is not in it. -/
theorem threshold_crossing_reports_files :
    aggregator "/r".toList
        ["/r/D/a".toList, "/r/D/b".toList, "/r/D/c".toList, "/r/D/d".toList,
          "/r/D/e".toList, "/r/D/f".toList, "/r/D/g".toList, "/r/D/h".toList,
          "/r/D/i".toList, "/r/D/j".toList, "/r/D/k".toList]
      = ["D/a".toList, "D/b".toList, "D/c".toList, "D/d".toList, "D/e".toList,
          "D/f".toList, "D/g".toList, "D/h".toList, "D/i".toList, "D/j".toList,
          "D/k".toList] ∧
    "D".toList ∉ aggregator "/r".toList
        ["/r/D/a".toList, "/r/D/b".toList, "/r/D/c".toList, "/r/D/d".toList,
          "/r/D/e".toList, "/r/D/f".toList, "/r/D/g".toList, "/r/D/h".toList,
          "/r/D/i".toList, "/r/D/j".toList, "/r/D/k".toList] := by
  decide

set_option maxRecDepth 100000 in
/-- C2, the code at a batch of 3 files under `/r/A/B` and 8 files under `/r/A/C` (watch
root `/r`, threshold 10): the report set is the 11 individual files, the common parent
`A` is not reported and is not even a tracked key. -/
theorem cross_subdirectory_reports_files :
    aggregator "/r".toList
        ["/r/A/B/a".toList, "/r/A/B/b".toList, "/r/A/B/c".toList,
          "/r/A/C/a".toList, "/r/A/C/b".toList, "/r/A/C/c".toList, "/r/A/C/d".toList,
          "/r/A/C/e".toList, "/r/A/C/f".toList, "/r/A/C/g".toList, "/r/A/C/h".toList]
      = ["A/B/a".toList, "A/B/b".toList, "A/B/c".toList,
          "A/C/a".toList, "A/C/b".toList, "A/C/c".toList, "A/C/d".toList,
          "A/C/e".toList, "A/C/f".toList, "A/C/g".toList, "A/C/h".toList] ∧
    mapGet (scorePaths
        ["/r/A/B/a".toList, "/r/A/B/b".toList, "/r/A/B/c".toList,
          "/r/A/C/a".toList, "/r/A/C/b".toList, "/r/A/C/c".toList, "/r/A/C/d".toList,
          "/r/A/C/e".toList, "/r/A/C/f".toList, "/r/A/C/g".toList, "/r/A/C/h".toList])
        "/r/A".toList = none := by
  decide

set_option maxRecDepth 100000 in
/-- C3, the code at the batch of the single file `A/B/c.txt`: the walk starts from
`previousPath = "."`, the key contains a dot, so it is skipped and the report set is
empty, with an empty watch root as with the watch root `/r`; the single file `A/B/c`
is reported. -/
theorem single_dotted_file_not_reported :
    aggregator [] ["A/B/c.txt".toList] = [] ∧
    aggregator "/r".toList ["/r/A/B/c.txt".toList] = [] ∧
    aggregator "/r".toList ["/r/A/B/c".toList] = ["A/B/c".toList] := by
  decide

set_option maxRecDepth 100000 in
/-- C4, the code at two batches with a path that no entry of the report set covers: for
`/r/a` with `/r/a/b` only `a/b` is reported, and for `/r/x.go` with `/r/y` only `y`. -/
theorem coverage_fails :
    aggregator "/r".toList ["/r/a".toList, "/r/a/b".toList] = ["a/b".toList] ∧
    coverCount (aggregator "/r".toList ["/r/a".toList, "/r/a/b".toList]) "a".toList = 0 ∧
    aggregator "/r".toList ["/r/x.go".toList, "/r/y".toList] = ["y".toList] ∧
    coverCount (aggregator "/r".toList ["/r/x.go".toList, "/r/y".toList]) "x.go".toList
      = 0 := by
  decide

/-- C5, no-overlap: among the keys that the selection walk picks for a batch, none is a
path-segment ancestor of another (none is even a proper prefix of another). -/
theorem no_overlap (paths : List GoString) (a b : GoString)
    (ha : a ∈ selectedKeys paths) (hb : b ∈ selectedKeys paths) :
    isAncestor a b = false := by
  have hq : (selectedKeys paths).Pairwise
      (fun x y => x ≠ y → strings.HasPrefix y x = false ∧ strings.HasPrefix x y = false) := by
    refine (selectedKeys_pairwise paths).imp ?_
    intro x y hxy _
    refine ⟨hxy.2, ?_⟩
    cases h : strings.HasPrefix x y with
    | false => rfl
    | true =>
      have := strings.not_less_of_HasPrefix x y h
      rw [this] at hxy
      cases hxy.1
  have hsymm : Symmetric
      (fun x y : GoString =>
        x ≠ y → strings.HasPrefix y x = false ∧ strings.HasPrefix x y = false) :=
    fun x y h hne => (h (fun e => hne e.symm)).symm
  have hall := List.Pairwise.forall_of_forall hsymm (fun x _ hne => absurd rfl hne) hq ha hb
  by_cases hab : a = b
  · simp [isAncestor, hab]
  · simp [isAncestor, (hall hab).1]

set_option maxRecDepth 100000 in
/-- C5 at the batch `/r/a`, `/r/a/b`, `/r/a/c`, `/r/z`: the keys `/r/a` and `/r/z` are
both selected and neither is an ancestor of the other, while `/r/a` is an ancestor of the
key `/r/a/b`, which the walk does not select. -/
theorem no_overlap_witness :
    selectedKeys ["/r/a".toList, "/r/a/b".toList, "/r/a/c".toList, "/r/z".toList]
      = ["/r/a".toList, "/r/z".toList] ∧
    isAncestor "/r/a".toList "/r/a/b".toList = true ∧
    isAncestor "/r/a".toList "/r/z".toList = false :=
  ⟨by decide, by decide,
    no_overlap ["/r/a".toList, "/r/a/b".toList, "/r/a/c".toList, "/r/z".toList] _ _
      (by decide) (by decide)⟩

set_option maxRecDepth 100000 in
/-- C6 fails when the closure is called during a flush. The run `lostPathSteps` can
happen; in it the path `/r/b`, appended while `f` is at work, is wiped by the reset: only
`/r/a` has been flushed, the batch is empty and no callback is under way, so the flushed
batches followed by the pending batch are not the ingested paths. In the run
`repeatedPathSteps` the path `/r/a` is handed to `f` twice. -/
theorem debounce_loses_path :
    timely debounceTimeout Debounce.init 0 lostPathSteps = true ∧
    (runSteps debounceTimeout lostPathSteps).flushed = [["/r/a".toList]] ∧
    (runSteps debounceTimeout lostPathSteps).subs = [] ∧
    (runSteps debounceTimeout lostPathSteps).started = 0 ∧
    (runSteps debounceTimeout lostPathSteps).running = 0 ∧
    ingested lostPathSteps = ["/r/a".toList, "/r/b".toList] ∧
    (runSteps debounceTimeout lostPathSteps).flushed.flatten ++
        (runSteps debounceTimeout lostPathSteps).subs ≠ ingested lostPathSteps ∧
    timely debounceTimeout Debounce.init 0 repeatedPathSteps = true ∧
    (runSteps debounceTimeout repeatedPathSteps).flushed =
      [["/r/a".toList], ["/r/a".toList, "/r/b".toList]] := by
  decide

/-- C6 as amended, exactly-once delivery when no flush is disturbed: over the sequences
of steps that can happen and in which no callback is between its call of `f` and its
reset at any call of the closure or at any other callback's call of `f`, the flushed
batches followed by the pending batch are the ingested paths in arrival order, the
pending batch holds the paths ingested since the last flush, a callback hands over exactly
these paths, and its reset leaves the batch empty. -/
theorem debounce_exactly_once (interval : Nat) (steps : List (Nat × Step))
    (hp : possible interval Debounce.init steps = true)
    (hu : undisturbed interval Debounce.init steps = true) :
    (runSteps interval steps).flushed.flatten ++ pending (runSteps interval steps)
      = ingested steps ∧
    pending (runSteps interval steps) = sinceLastCall steps ∧
    (∀ now, enabled (runSteps interval steps) Step.call = true →
      (runSteps interval steps).running = 0 →
      (runSteps interval (steps ++ [(now, Step.call)])).flushed =
        (runSteps interval steps).flushed ++ [sinceLastCall steps]) ∧
    (∀ now, enabled (runSteps interval steps) Step.reset = true →
      (runSteps interval (steps ++ [(now, Step.reset)])).subs = []) := by
  obtain ⟨-, h4, h5⟩ := runSteps_invariant interval steps hp hu
  refine ⟨h4, h5, ?_, ?_⟩
  · intro now hen hr
    have hpos : 0 < (runSteps interval steps).started := by simpa [enabled] using hen
    have hne : ¬ (runSteps interval steps).started = 0 := by omega
    have hpd : pending (runSteps interval steps) = (runSteps interval steps).subs := by
      simp [pending, hr]
    rw [runSteps_concat, ← h5, hpd]
    simp [debounce, hne]
  · intro now hen
    have hpos : 0 < (runSteps interval steps).running := by simpa [enabled] using hen
    have hne : ¬ (runSteps interval steps).running = 0 := by omega
    rw [runSteps_concat]
    simp [debounce, hne]

set_option maxRecDepth 100000 in
/-- C6 as amended, at a run with calls at 0 and 300 ms, the second one after the timer has
fired and before its callback calls `f`, a flush from 310 to 500 ms, an empty flush at
600 ms and a call at 1000 ms: the first two paths have been flushed together, the third
is pending. -/
theorem debounce_exactly_once_witness :
    (runSteps debounceTimeout
        [(0, .ingest "/r/a".toList), (300, .fire), (300, .ingest "/r/b".toList),
          (310, .call), (500, .reset), (600, .fire), (600, .call), (650, .reset),
          (1000, .ingest "/r/c".toList)]).flushed
      = [["/r/a".toList, "/r/b".toList], []] ∧
    pending (runSteps debounceTimeout
        [(0, .ingest "/r/a".toList), (300, .fire), (300, .ingest "/r/b".toList),
          (310, .call), (500, .reset), (600, .fire), (600, .call), (650, .reset),
          (1000, .ingest "/r/c".toList)])
      = ["/r/c".toList] ∧
    (runSteps debounceTimeout
        [(0, .ingest "/r/a".toList), (300, .fire), (300, .ingest "/r/b".toList),
          (310, .call), (500, .reset), (600, .fire), (600, .call), (650, .reset),
          (1000, .ingest "/r/c".toList)]).flushed.flatten ++
      pending (runSteps debounceTimeout
        [(0, .ingest "/r/a".toList), (300, .fire), (300, .ingest "/r/b".toList),
          (310, .call), (500, .reset), (600, .fire), (600, .call), (650, .reset),
          (1000, .ingest "/r/c".toList)])
      = ["/r/a".toList, "/r/b".toList, "/r/c".toList] :=
  ⟨by decide, by decide,
    (debounce_exactly_once debounceTimeout
      [(0, .ingest "/r/a".toList), (300, .fire), (300, .ingest "/r/b".toList),
          (310, .call), (500, .reset), (600, .fire), (600, .call), (650, .reset),
          (1000, .ingest "/r/c".toList)]
      (by decide) (by decide)).1⟩

set_option maxRecDepth 100000 in
/-- C7 fails for calls at least one window apart; the three runs below can happen and
run to their end. In `tieSteps` the calls are exactly one window apart, the second call
stops the timer due at that instant, and one flush carries both paths. In
`lateCallSteps` the timer fires first but its callback calls `f` after the second call:
the first flush carries both paths and the second nothing. In `slowFlushSteps` the calls
are 400 ms apart, the second arrives during the flush of the first, and the two flushes
carry `/r/a` and nothing. -/
theorem debounce_at_least_window_fails :
    timely debounceTimeout Debounce.init 0 tieSteps = true ∧
    settled (runSteps debounceTimeout tieSteps) = true ∧
    (ingestsOf tieSteps).Chain' (gapAtLeast debounceTimeout) ∧
    (runSteps debounceTimeout tieSteps).flushed = [["/r/a".toList, "/r/b".toList]] ∧
    timely debounceTimeout Debounce.init 0 lateCallSteps = true ∧
    settled (runSteps debounceTimeout lateCallSteps) = true ∧
    (ingestsOf lateCallSteps).Chain' (gapAtLeast debounceTimeout) ∧
    (runSteps debounceTimeout lateCallSteps).flushed
      = [["/r/a".toList, "/r/b".toList], []] ∧
    timely debounceTimeout Debounce.init 0 slowFlushSteps = true ∧
    settled (runSteps debounceTimeout slowFlushSteps) = true ∧
    (ingestsOf slowFlushSteps).Chain' (gapAtLeast debounceTimeout) ∧
    (runSteps debounceTimeout slowFlushSteps).flushed = [["/r/a".toList], []] ∧
    (runSteps debounceTimeout slowFlushSteps).flushed
      ≠ (ingestsOf slowFlushSteps).map (fun e => [e.2]) := by
  refine ⟨by decide, by decide, ?_, by decide, by decide, by decide, ?_, by decide,
    by decide, by decide, ?_, by decide, by decide⟩
  · simp [tieSteps, ingestsOf, gapAtLeast, debounceTimeout]
  · simp [lateCallSteps, ingestsOf, gapAtLeast, debounceTimeout]
  · simp [slowFlushSteps, lostPathSteps, ingestsOf, gapAtLeast, debounceTimeout]

/-- C7 as amended, debounce coalescing: in every run that can happen and has run to its
end, calls whose consecutive gaps are all shorter than the window cause exactly one
flush, whose timer fires one window after the last call and which carries all the paths
in arrival order; calls more than one window apart, each flush having finished before the
next call, cause one flush each, whose timer fires one window after the call and which
carries the path of that call. -/
theorem debounce_coalescing (interval : Nat) (steps : List (Nat × Step))
    (ht : timely interval Debounce.init 0 steps = true)
    (hs : settled (runSteps interval steps) = true) :
    (∀ pre t p, ingestsOf steps = pre ++ [(t, p)] →
      (ingestsOf steps).Chain' (gapShorter interval) →
      (runSteps interval steps).fired = [t + interval] ∧
      (runSteps interval steps).flushed = [ingested steps]) ∧
    (quiet interval Debounce.init steps = true →
      (ingestsOf steps).Chain' (gapLonger interval) →
      (runSteps interval steps).fired = (ingestsOf steps).map (fun e => e.1 + interval) ∧
      (runSteps interval steps).flushed = (ingestsOf steps).map (fun e => [e.2])) := by
  constructor
  · intro pre t p hpre hc
    cases steps with
    | nil => simp [ingestsOf] at hpre
    | cons x rest =>
      obtain ⟨now, step⟩ := x
      cases step with
      | ingest sub =>
        have h' := (timely_ingest _ _ _ _ _ _ ht).2.2
        have hi : ingestsOf ((now, Step.ingest sub) :: rest) = (now, sub) :: ingestsOf rest := by
          simp [ingestsOf]
        rw [hi] at hc hpre
        have hlast : (ingestsOf rest).getLastD (now, sub) = (t, p) := by
          rw [← List.getLastD_cons (t, p), hpre, List.getLastD_concat]
        rw [runSteps, runFrom, List.foldl_cons, ← runFrom] at hs ⊢
        obtain ⟨e1, e2⟩ :=
          flushed_gapShorter interval rest _ now (now, sub) rfl rfl rfl h' hs hc
        rw [e1, e2, hlast]
        simp [debounce, Debounce.init, ingested, hi]
      | fire =>
        have := (timely_fire _ _ _ _ _ ht).2.1
        simp [Debounce.init] at this
      | call =>
        have := (timely_call _ _ _ _ _ ht).2.1
        simp [Debounce.init] at this
      | reset =>
        have := (timely_reset _ _ _ _ _ ht).2.1
        simp [Debounce.init] at this
  · intro hq hc
    have := (flushed_gapLonger interval steps Debounce.init 0 ht hq hs).1 rfl rfl rfl rfl hc
    simpa [runSteps, Debounce.init] using this

set_option maxRecDepth 100000 in
/-- C7 as amended, with the window of 300 ms: calls at 0, 100 and 350 ms give one flush,
whose timer fires at 650 ms (the flush starts at 660 ms and takes until 2000 ms); calls
at 0, 400 and 1000 ms, each flush finished before the next call, give three flushes. -/
theorem debounce_coalescing_witness :
    ((runSteps debounceTimeout
        [(0, .ingest "/r/a".toList), (100, .ingest "/r/b".toList),
          (350, .ingest "/r/c".toList), (650, .fire), (660, .call), (2000, .reset)]).fired
        = [650] ∧
      (runSteps debounceTimeout
        [(0, .ingest "/r/a".toList), (100, .ingest "/r/b".toList),
          (350, .ingest "/r/c".toList), (650, .fire), (660, .call), (2000, .reset)]).flushed
        = [["/r/a".toList, "/r/b".toList, "/r/c".toList]]) ∧
    ((runSteps debounceTimeout
        [(0, .ingest "/r/a".toList), (300, .fire), (300, .call), (350, .reset),
          (400, .ingest "/r/b".toList), (700, .fire), (710, .call), (750, .reset),
          (1000, .ingest "/r/c".toList), (1300, .fire), (1300, .call),
          (1400, .reset)]).fired
        = [300, 700, 1300] ∧
      (runSteps debounceTimeout
        [(0, .ingest "/r/a".toList), (300, .fire), (300, .call), (350, .reset),
          (400, .ingest "/r/b".toList), (700, .fire), (710, .call), (750, .reset),
          (1000, .ingest "/r/c".toList), (1300, .fire), (1300, .call),
          (1400, .reset)]).flushed
        = [["/r/a".toList], ["/r/b".toList], ["/r/c".toList]]) :=
  ⟨(debounce_coalescing debounceTimeout
      [(0, .ingest "/r/a".toList), (100, .ingest "/r/b".toList),
        (350, .ingest "/r/c".toList), (650, .fire), (660, .call), (2000, .reset)]
      (by decide) (by decide)).1
      [(0, "/r/a".toList), (100, "/r/b".toList)] 350 "/r/c".toList (by decide)
      (by simp [ingestsOf, gapShorter, debounceTimeout]),
    (debounce_coalescing debounceTimeout
      [(0, .ingest "/r/a".toList), (300, .fire), (300, .call), (350, .reset),
        (400, .ingest "/r/b".toList), (700, .fire), (710, .call), (750, .reset),
        (1000, .ingest "/r/c".toList), (1300, .fire), (1300, .call), (1400, .reset)]
      (by decide) (by decide)).2 (by decide)
      (by simp [ingestsOf, gapLonger, debounceTimeout])⟩

set_option maxRecDepth 100000 in
/-- C8, the code at the batch `/data/ab`, `/data/abc` (watch root `/data`): only `abc` is
reported; with `/data/abd` added only `ab` is reported; and the test of the walk holds
for the key `/data/abc` against the last selected path `/data/ab`, which is not a
path-segment ancestor of it. -/
theorem substring_covering :
    aggregator "/data".toList ["/data/ab".toList, "/data/abc".toList] = ["abc".toList] ∧
    aggregator "/data".toList ["/data/ab".toList, "/data/abc".toList, "/data/abd".toList]
      = ["ab".toList] ∧
    strings.Contains "/data/abc".toList "/data/ab".toList = true ∧
    isAncestor "/data/ab".toList "/data/abc".toList = false := by
  decide

set_option maxRecDepth 100000 in
/-- C9, the code at the batch `/r/a`, `/r/a/b`: after the scoring pass the path `/r/a`
of the batch has the score 9, the sentinel -1 plus the weight 10 that the step for
`/r/a/b` added to it. -/
theorem leaf_sentinel_overwritten :
    scorePaths ["/r/a".toList, "/r/a/b".toList]
      = [("/r/a".toList, 9), ("/r/a/b".toList, -1)] ∧
    mapGet (scorePaths ["/r/a".toList, "/r/a/b".toList]) "/r/a".toList = some 9 := by
  decide

/-- C10: for a non-empty path the scoring loop computes `dir = Clean(path)`, so the
weight is `dirVsFiles` and the directory entry is keyed on the cleaned path itself; the
weight 1 is computed for the empty path and for no other. -/
theorem dir_is_clean (path : GoString) :
    (path ≠ [] →
      dirOf path = filepath.Clean path ∧ scoreOf path = dirVsFiles ∧
      ∀ trackedPaths : TrackedPaths,
        scoreStep trackedPaths path =
          mapSet
            (if (mapGet (bumpTracked trackedPaths (filepath.Clean path) dirVsFiles)
                (filepath.Clean path)).isSome then
              bumpTracked trackedPaths (filepath.Clean path) dirVsFiles
            else
              mapSet (bumpTracked trackedPaths (filepath.Clean path) dirVsFiles)
                (filepath.Clean path) dirVsFiles)
            path (-1)) ∧
    (scoreOf path = 1 ↔ path = []) := by
  have hs : path ≠ [] → scoreOf path = dirVsFiles := fun h => by
    rw [scoreOf, if_pos (dirOf_eq_Clean path h)]
  refine ⟨fun h => ⟨dirOf_eq_Clean path h, hs h, fun trackedPaths => ?_⟩, ?_, ?_⟩
  · simp only [scoreStep, hs h, dirOf_eq_Clean path h]
  · intro h1
    by_contra hne
    rw [hs hne] at h1
    exact absurd h1 (by decide)
  · intro h
    subst h
    decide

end SyncWatcher

